import Mathlib

/-!
Verification of the pvcaptest core: the calculation-parameter resolver
(`util.process_reg_cols` / `util.update_by_path`) and the reactive filter
chain (`filters.py`).

Two embeddings are used.

* A plain value (tree) model of Python nested dictionaries, used to verify
  `update_by_path` in isolation: the dictionary is a finite tree of dicts,
  2-tuples, strings, callables and `None`, and mutation is modelled by
  rebuilding the tree along the path (the standard value-semantics reading
  of in-place mutation of a tree-shaped structure).

* An explicit heap model for `process_reg_cols`, because the observable
  behaviour of the resolver depends on Python reference semantics: the
  resolver keeps local references to dict objects, rewrites the tree at the
  root via `update_by_path`, restarts from the root, and afterwards the
  still-running stack frames keep reading their (possibly detached) dict
  objects.  Dicts and tuples are heap objects addressed by `Nat` references;
  strings, callables and `None` are immutable immediate values.

Python exceptions are modelled by an error type, and the resolver's
recursion (which is not structurally terminating in general - it restarts
from the root after every rewrite) is driven by fuel.
-/

namespace Pvcaptest

/-- Python exception classes that the modelled code can raise.
`nameError` arises from `filters.py` calling `warnings.warn` without
importing `warnings`.  `cyclicSpecificationError` is the error class named
by the specification for cyclic specifications; it appears nowhere in the
source, and the model never produces it. -/
inductive PErr where
  | keyError
  | typeError
  | indexError
  | nameError
  | cyclicSpecificationError
deriving DecidableEq, Repr

/-- A key in a path handed to `update_by_path`: Python string keys into
dicts and (non-negative) integer indices into tuples.  The source only ever
uses the index `1` (the kwargs slot of a calc-params tuple). -/
inductive PKey where
  | s (k : String)
  | i (n : Nat)
deriving DecidableEq, Repr

/-- First-match association-list lookup: Python `d[k]` on the insertion
ordered dict model. -/
def assocLookup {α β : Type} [DecidableEq α] : List (α × β) → α → Option β
  | [], _ => none
  | (a, b) :: rest, k => if a = k then some b else assocLookup rest k

/-- Python `d[k] = v`: replace the value at an existing key in place
(keeping its position), or append a brand-new key at the end, exactly as an
insertion-ordered Python dict does. -/
def assocSet {α β : Type} [DecidableEq α] : List (α × β) → α → β → List (α × β)
  | [], k, v => [(k, v)]
  | (a, b) :: rest, k, v =>
      if a = k then (k, v) :: rest else (a, b) :: assocSet rest k v

/-- Tree model of the Python values stored in a calc-params dictionary:
strings, callables (identified by their `__name__`), `None`, 2-tuples (the
source only ever builds pairs) and insertion-ordered dicts. -/
inductive PyVal where
  | str (s : String)
  | func (name : String)
  | pynone
  | tup (a b : PyVal)
  | dict (entries : List (PKey × PyVal))

/-- Python subscript read `cur[key]`.  Dicts look keys up (KeyError when
absent); tuples accept indices 0 and 1 (IndexError beyond, TypeError on a
string key); strings accept integer indices and yield one-character strings;
callables and `None` are not subscriptable. -/
def PyVal.getItem : PyVal → PKey → Except PErr PyVal
  | .dict es, k =>
      match assocLookup es k with
      | some v => .ok v
      | none => .error .keyError
  | .tup a _, .i 0 => .ok a
  | .tup _ b, .i 1 => .ok b
  | .tup _ _, .i _ => .error .indexError
  | .tup _ _, .s _ => .error .typeError
  | .str s, .i n =>
      match s.toList[n]? with
      | some c => .ok (.str (String.mk [c]))
      | none => .error .indexError
  | .str _, .s _ => .error .typeError
  | .func _, _ => .error .typeError
  | .pynone, _ => .error .typeError

/-- Python subscript assignment `cur[key] = v`: only dicts support item
assignment (inserting when the key is new); tuples and strings raise
TypeError. -/
def PyVal.setItem : PyVal → PKey → PyVal → Except PErr PyVal
  | .dict es, k, v => .ok (.dict (assocSet es k v))
  | _, _, _ => .error .typeError

/-- Pure navigation `d[k1][k2]...[kn]`, used to state what `update_by_path`
did to the tree. -/
def PyVal.getPath : PyVal → List PKey → Except PErr PyVal
  | v, [] => .ok v
  | v, k :: ks =>
      match v.getItem k with
      | .ok c => c.getPath ks
      | .error e => .error e

/-- In the value model, the in-place mutation of the child object found at
`cur[k]` is reflected by rebuilding the parent around the updated child.
(Immutable parents - strings - are returned unchanged; the only way an
update below a string can succeed is the do-nothing convert branch.) -/
def replaceChild (cur : PyVal) (k : PKey) (child' : PyVal) : PyVal :=
  match cur, k with
  | .dict es, _ => .dict (assocSet es k child')
  | .tup _ b, .i 0 => .tup child' b
  | .tup a _, .i 1 => .tup a child'
  | c, _ => c

/-- The recursive worker for `update_by_path` (see below).  The Python
function walks `path[:-1]` by repeated subscripting and then acts on the
last key. -/
def update_by_path_go (cur : PyVal) (nv : Option PyVal) (cc : Bool) :
    List PKey → Except PErr PyVal
  | [] => .error .indexError
  | [last] =>
      if cc && nv.isNone then
        match cur.getItem last with
        | .error e => .error e
        | .ok (.tup (.func n) _) => cur.setItem last (.str n)
        | .ok _ => .ok cur
      else
        cur.setItem last (nv.getD .pynone)
  | k :: rest =>
      match cur.getItem k with
      | .error e => .error e
      | .ok child =>
          match update_by_path_go child nv cc rest with
          | .error e => .error e
          | .ok child' => .ok (replaceChild cur k child')

/-- `util.update_by_path(dictionary, path, new_value=None,
convert_callable=False)`.  Navigates `path[:-1]`; when `convert_callable`
is set and no new value is given it replaces a tuple-with-callable-head
entry by the callable's `__name__` (and otherwise does nothing); in every
other case it assigns `new_value` (Python `None` when absent) at the last
key.  An empty path raises IndexError (`path[-1]`). -/
def update_by_path (dictionary : PyVal) (path : List PKey)
    (new_value : Option PyVal := none) (convert_callable : Bool := false) :
    Except PErr PyVal :=
  update_by_path_go dictionary new_value convert_callable path

theorem assocLookup_assocSet_self {α β : Type} [DecidableEq α]
    (es : List (α × β)) (k : α) (v : β) :
    assocLookup (assocSet es k v) k = some v := by
  induction es with
  | nil => simp [assocSet, assocLookup]
  | cons hd tl ih =>
      obtain ⟨a, b⟩ := hd
      by_cases h : a = k <;> simp [assocSet, assocLookup, h, ih]

theorem assocLookup_assocSet_ne {α β : Type} [DecidableEq α]
    (es : List (α × β)) (k k' : α) (v : β) (h : k' ≠ k) :
    assocLookup (assocSet es k v) k' = assocLookup es k' := by
  induction es with
  | nil => simp [assocSet, assocLookup, Ne.symm h]
  | cons hd tl ih =>
      obtain ⟨a, b⟩ := hd
      by_cases ha : a = k
      · subst ha
        simp [assocSet, assocLookup, h, Ne.symm h]
      · simp [assocSet, assocLookup, ha, ih]

theorem assocSet_eq_of_lookup {α β : Type} [DecidableEq α]
    (es : List (α × β)) (k : α) (v : β) (h : assocLookup es k = some v) :
    assocSet es k v = es := by
  induction es with
  | nil => simp [assocLookup] at h
  | cons hd tl ih =>
      obtain ⟨a, b⟩ := hd
      by_cases ha : a = k
      · subst ha
        simp [assocLookup] at h
        simp [assocSet, h]
      · simp [assocLookup, ha] at h
        simp [assocSet, ha, ih h]

/-- Subscripting a string only ever yields further (one-character)
strings. -/
theorem getItem_of_str {s : String} {k : PKey} {c : PyVal}
    (h : (PyVal.str s).getItem k = .ok c) : ∃ t, c = PyVal.str t := by
  cases k with
  | s key => simp [PyVal.getItem] at h
  | i n =>
      simp only [PyVal.getItem] at h
      cases hn : s.toList[n]? with
      | none => rw [hn] at h; exact absurd h (by simp)
      | some ch =>
          rw [hn] at h
          simp only [Except.ok.injEq] at h
          exact ⟨_, h.symm⟩

/-- Anything `update_by_path` tries to do strictly below a string fails:
neither item assignment nor a tuple conversion can apply to a string or to
one of its characters. -/
theorem update_by_path_go_str (v : PyVal) (cc : Bool) :
    ∀ (path : List PKey) (s : String), ∃ e,
      update_by_path_go (.str s) (some v) cc path = .error e := by
  intro path
  induction path with
  | nil => intro s; exact ⟨.indexError, rfl⟩
  | cons k rest ih =>
      intro s
      cases rest with
      | nil =>
          refine ⟨.typeError, ?_⟩
          simp [update_by_path_go, PyVal.setItem]
      | cons r rs =>
          simp only [update_by_path_go]
          cases hk : (PyVal.str s).getItem k with
          | error e => exact ⟨e, rfl⟩
          | ok c =>
              obtain ⟨t, rfl⟩ := getItem_of_str hk
              obtain ⟨e, he⟩ := ih t
              exact ⟨e, by simp [he]⟩

/-- After rebuilding a (mutable, successfully subscripted) parent around an
updated child, reading the updated key gives the new child and reading any
other key is unchanged. -/
theorem replaceChild_getItem {cur : PyVal} {k : PKey} {child : PyVal}
    (child' : PyVal) (hget : cur.getItem k = .ok child)
    (hns : ∀ s, cur ≠ .str s) :
    (replaceChild cur k child').getItem k = .ok child' ∧
    ∀ k', k' ≠ k → (replaceChild cur k child').getItem k' = cur.getItem k' := by
  cases cur with
  | dict es =>
      refine ⟨by simp [replaceChild, PyVal.getItem, assocLookup_assocSet_self], ?_⟩
      intro k' hk'
      simp [replaceChild, PyVal.getItem, assocLookup_assocSet_ne _ _ _ _ hk']
  | tup a b =>
      cases k with
      | s key => simp [PyVal.getItem] at hget
      | i n =>
          cases n with
          | zero =>
              refine ⟨rfl, ?_⟩
              intro k' hk'
              cases k' with
              | s key => rfl
              | i m =>
                  cases m with
                  | zero => exact absurd rfl hk'
                  | succ m => cases m <;> rfl
          | succ n =>
              cases n with
              | zero =>
                  refine ⟨rfl, ?_⟩
                  intro k' hk'
                  cases k' with
                  | s key => rfl
                  | i m =>
                      cases m with
                      | zero => rfl
                      | succ m =>
                          cases m with
                          | zero => exact absurd rfl hk'
                          | succ m => rfl
              | succ n => simp [PyVal.getItem] at hget
  | str s => exact absurd rfl (hns s)
  | func n => simp [PyVal.getItem] at hget
  | pynone => simp [PyVal.getItem] at hget

/-- Core lemma for the frame property of `update_by_path` with an explicit
new value: the entry at the path now holds the new value, and every path
that diverges from the update path reads exactly what it read before. -/
theorem update_by_path_go_frame (v : PyVal) (cc : Bool) :
    ∀ (path : List PKey) (d d' : PyVal),
      update_by_path_go d (some v) cc path = .ok d' →
      d'.getPath path = .ok v ∧
      ∀ q, ¬ path <+: q → ¬ q <+: path → d'.getPath q = d.getPath q := by
  intro path
  induction path with
  | nil => intro d d' h; simp [update_by_path_go] at h
  | cons k rest ih =>
      intro d d' h
      cases rest with
      | nil =>
          -- path = [k]: the final assignment `current[k] = v`
          simp only [update_by_path_go, Option.isNone_some, Bool.and_false,
            Bool.false_eq_true, if_false] at h
          cases d with
          | dict es =>
              simp only [PyVal.setItem, Except.ok.injEq] at h
              subst h
              constructor
              · simp [PyVal.getPath, PyVal.getItem, assocLookup_assocSet_self]
              · intro q hq1 hq2
                cases q with
                | nil => exact absurd List.nil_prefix hq2
                | cons k' qt =>
                    have hkk : k' ≠ k := by
                      intro hkk
                      subst hkk
                      rcases qt with _ | ⟨q1, qt⟩
                      · exact hq2 (List.prefix_refl _)
                      · exact hq1 ⟨q1 :: qt, rfl⟩
                    simp [PyVal.getPath, PyVal.getItem,
                      assocLookup_assocSet_ne _ _ _ _ hkk]
          | str s => simp [PyVal.setItem] at h
          | func n => simp [PyVal.setItem] at h
          | pynone => simp [PyVal.setItem] at h
          | tup a b => simp [PyVal.setItem] at h
      | cons r rs =>
          simp only [update_by_path_go] at h
          cases hget : d.getItem k with
          | error e => simp [hget] at h
          | ok child =>
              simp only [hget] at h
              cases hgo : update_by_path_go child (some v) cc (r :: rs) with
              | error e => simp [hgo] at h
              | ok child' =>
                  simp only [hgo, Except.ok.injEq] at h
                  subst h
                  obtain ⟨ih1, ih2⟩ := ih child child' hgo
                  have hns : ∀ s, d ≠ PyVal.str s := by
                    intro s hd
                    subst hd
                    obtain ⟨t, rfl⟩ := getItem_of_str hget
                    obtain ⟨e, he⟩ := update_by_path_go_str v cc (r :: rs) t
                    rw [he] at hgo
                    exact absurd hgo (by simp)
                  obtain ⟨hrep1, hrep2⟩ := replaceChild_getItem child' hget hns
                  constructor
                  · simp only [PyVal.getPath, hrep1]
                    exact ih1
                  · intro q hq1 hq2
                    cases q with
                    | nil => exact absurd List.nil_prefix hq2
                    | cons k' qt =>
                        by_cases hkk : k' = k
                        · subst hkk
                          have hq1' : ¬ (r :: rs) <+: qt := by
                            intro hpre
                            exact hq1 (List.cons_prefix_cons.mpr ⟨rfl, hpre⟩)
                          have hq2' : ¬ qt <+: (r :: rs) := by
                            intro hpre
                            exact hq2 (List.cons_prefix_cons.mpr ⟨rfl, hpre⟩)
                          simp only [PyVal.getPath, hrep1, hget]
                          exact ih2 qt hq1' hq2'
                        · simp only [PyVal.getPath, hrep2 k' hkk]

/-- Claim C9: `update_by_path` with a provided new value mutates exactly the
entry reached by following the path; every entry at a path diverging from
the update path is untouched.  In this value model the "returned dictionary
is the same object, mutated in place" clause of the source reads as: the
returned tree is the input tree with only the addressed entry replaced,
which is what the two conclusions express. -/
theorem update_by_path_mutates_only_path (d d' : PyVal) (path q : List PKey)
    (v : PyVal) (cc : Bool)
    (hup : update_by_path d path (some v) cc = .ok d')
    (hq1 : ¬ path <+: q) (hq2 : ¬ q <+: path) :
    d'.getPath path = .ok v ∧ d'.getPath q = d.getPath q := by
  obtain ⟨h1, h2⟩ := update_by_path_go_frame v cc path d d' hup
  exact ⟨h1, h2 q hq1 hq2⟩

theorem getPath_cons_ok {d c : PyVal} {k : PKey} {ks : List PKey}
    (h : d.getItem k = .ok c) : d.getPath (k :: ks) = c.getPath ks := by
  simp [PyVal.getPath, h]

/-- Rebuilding a parent around the unchanged child gives back the parent. -/
theorem replaceChild_self {cur : PyVal} {k : PKey} {child : PyVal}
    (hget : cur.getItem k = .ok child) : replaceChild cur k child = cur := by
  cases cur with
  | dict es =>
      simp only [PyVal.getItem] at hget
      cases hl : assocLookup es k with
      | none => rw [hl] at hget; exact absurd hget (by simp)
      | some v =>
          rw [hl] at hget
          simp only [Except.ok.injEq] at hget
          subst hget
          simp [replaceChild, assocSet_eq_of_lookup es k _ hl]
  | tup a b =>
      cases k with
      | s key => simp [PyVal.getItem] at hget
      | i n =>
          cases n with
          | zero =>
              simp only [PyVal.getItem, Except.ok.injEq] at hget
              simp [replaceChild, hget]
          | succ n =>
              cases n with
              | zero =>
                  simp only [PyVal.getItem, Except.ok.injEq] at hget
                  simp [replaceChild, hget]
              | succ n => simp [PyVal.getItem] at hget
  | str s => rfl
  | func n => simp [PyVal.getItem] at hget
  | pynone => simp [PyVal.getItem] at hget

/-- Navigating below a string can only produce (one-character) strings. -/
theorem getPath_of_str :
    ∀ (path : List PKey) (s : String) (w : PyVal),
      (PyVal.str s).getPath path = .ok w → ∃ t, w = PyVal.str t := by
  intro path
  induction path with
  | nil =>
      intro s w h
      simp only [PyVal.getPath, Except.ok.injEq] at h
      exact ⟨s, h.symm⟩
  | cons k rest ih =>
      intro s w h
      simp only [PyVal.getPath] at h
      cases hk : (PyVal.str s).getItem k with
      | error e => rw [hk] at h; exact absurd h (by simp)
      | ok c =>
          rw [hk] at h
          obtain ⟨t, rfl⟩ := getItem_of_str hk
          exact ih t w h

/-- With a provided new value the `convert_callable` flag is irrelevant:
the convert branch is guarded by `new_value is None`. -/
theorem update_by_path_go_some_cc (v : PyVal) :
    ∀ (path : List PKey) (d : PyVal),
      update_by_path_go d (some v) true path =
        update_by_path_go d (some v) false path := by
  intro path
  induction path with
  | nil => intro d; rfl
  | cons k rest ih =>
      intro d
      cases rest with
      | nil => rfl
      | cons r rs =>
          simp only [update_by_path_go]
          cases d.getItem k with
          | error e => rfl
          | ok child => simp [ih child]

/-- Behaviour of the `convert_callable=True, new_value=None` branch: a
tuple-with-callable-head entry at the path is replaced by the callable's
`__name__`; any other entry leaves the whole dictionary untouched. -/
theorem update_by_path_go_convert :
    ∀ (path : List PKey) (d d' : PyVal),
      update_by_path_go d none true path = .ok d' →
      (∀ n b, d.getPath path = .ok (.tup (.func n) b) →
        d'.getPath path = .ok (.str n)) ∧
      ((∀ n b, d.getPath path ≠ .ok (.tup (.func n) b)) → d' = d) := by
  intro path
  induction path with
  | nil => intro d d' h; simp [update_by_path_go] at h
  | cons k rest ih =>
      intro d d' h
      cases rest with
      | nil =>
          simp only [update_by_path_go, Option.isNone_none, Bool.and_true,
            if_true] at h
          cases hget : d.getItem k with
          | error e => rw [hget] at h; exact absurd h (by simp)
          | ok tv =>
              rw [hget] at h
              constructor
              · intro n b hp
                simp only [PyVal.getPath, hget] at hp
                simp only [PyVal.getPath, Except.ok.injEq] at hp
                subst hp
                -- the convert branch fires: `current[k] = tv[0].__name__`
                cases d with
                | dict es =>
                    simp only [PyVal.setItem, Except.ok.injEq] at h
                    subst h
                    simp [PyVal.getPath, PyVal.getItem, assocLookup_assocSet_self]
                | str s => simp [PyVal.setItem] at h
                | func m => simp [PyVal.getItem] at hget
                | pynone => simp [PyVal.getItem] at hget
                | tup a b' => simp [PyVal.setItem] at h
              · intro hne
                have hne' : ∀ n b, tv ≠ PyVal.tup (.func n) b := by
                  intro n b htv
                  exact hne n b (by simp [PyVal.getPath, hget, htv])
                cases tv with
                | tup a b =>
                    cases a with
                    | func n => exact absurd rfl (hne' n b)
                    | str s => simpa using h.symm
                    | pynone => simpa using h.symm
                    | tup x y => simpa using h.symm
                    | dict es => simpa using h.symm
                | str s => simpa using h.symm
                | func n => simpa using h.symm
                | pynone => simpa using h.symm
                | dict es => simpa using h.symm
      | cons r rs =>
          simp only [update_by_path_go] at h
          cases hget : d.getItem k with
          | error e => simp [hget] at h
          | ok child =>
              simp only [hget] at h
              cases hgo : update_by_path_go child none true (r :: rs) with
              | error e => simp [hgo] at h
              | ok child' =>
                  simp only [hgo, Except.ok.injEq] at h
                  subst h
                  obtain ⟨ih1, ih2⟩ := ih child child' hgo
                  constructor
                  · intro n b hp
                    simp only [PyVal.getPath, hget] at hp
                    have hns : ∀ s, d ≠ PyVal.str s := by
                      intro s hd
                      subst hd
                      obtain ⟨t, rfl⟩ := getItem_of_str hget
                      obtain ⟨u, hu⟩ := getPath_of_str (r :: rs) t _ hp
                      exact absurd hu (by simp)
                    obtain ⟨hrep1, _⟩ := replaceChild_getItem child' hget hns
                    simp only [PyVal.getPath, hrep1]
                    exact ih1 n b hp
                  · intro hne
                    have hch : child' = child := by
                      refine ih2 ?_
                      intro n b hp
                      exact hne n b ((getPath_cons_ok hget).trans hp)
                    subst hch
                    exact replaceChild_self hget

/-- Claim C10: with `convert_callable=True` and `new_value=None`,
`update_by_path` replaces the entry at the path by the `__name__` of the
tuple's first element exactly when that entry is a tuple whose first
element is callable, and otherwise returns the dictionary completely
unchanged; with a non-`None` `new_value` the flag is irrelevant and the
entry is simply assigned. -/
theorem update_by_path_convert_spec :
    ∀ (d d' : PyVal) (path : List PKey),
      (update_by_path d path none true = .ok d' →
        ∀ n b, d.getPath path = .ok (.tup (.func n) b) →
          d'.getPath path = .ok (.str n)) ∧
      (update_by_path d path none true = .ok d' →
        (∀ n b, d.getPath path ≠ .ok (.tup (.func n) b)) → d' = d) ∧
      (∀ v, update_by_path d path (some v) true =
        update_by_path d path (some v) false) := by
  intro d d' path
  refine ⟨?_, ?_, ?_⟩
  · intro h n b hp
    exact (update_by_path_go_convert path d d' h).1 n b hp
  · intro h hne
    exact (update_by_path_go_convert path d d' h).2 hne
  · intro v
    exact update_by_path_go_some_cc v path d

/-- Concrete nested calc-params dictionary, mirroring the shape of the
repository's test fixture: a derivation tuple whose kwargs dict holds a
plain column-group string and an aggregation tuple. -/
def sampleSpec : PyVal :=
  .dict [(.s "power_tc", .tup (.func "test_func1")
    (.dict [(.s "power", .str "real_pwr_mtr"),
            (.s "bom", .tup (.str "irr_poa") (.str "mean"))]))]

/-- `sampleSpec` after assigning `"temp_bom"` at
`["power_tc", 1, "bom"]`. -/
def sampleSpecSet : PyVal :=
  .dict [(.s "power_tc", .tup (.func "test_func1")
    (.dict [(.s "power", .str "real_pwr_mtr"),
            (.s "bom", .str "temp_bom")]))]

theorem update_by_path_mutates_only_path_witness :
    PyVal.getPath sampleSpecSet [.s "power_tc", .i 1, .s "bom"]
        = .ok (.str "temp_bom") ∧
      PyVal.getPath sampleSpecSet [.s "power_tc", .i 1, .s "power"]
        = PyVal.getPath sampleSpec [.s "power_tc", .i 1, .s "power"] :=
  update_by_path_mutates_only_path sampleSpec sampleSpecSet
    [.s "power_tc", .i 1, .s "bom"] [.s "power_tc", .i 1, .s "power"]
    (.str "temp_bom") false rfl (by decide) (by decide)

theorem update_by_path_convert_spec_witness :
    PyVal.getPath (.dict [(.s "power_tc", .str "test_func1")]) [.s "power_tc"]
        = .ok (.str "test_func1") ∧
      sampleSpec = sampleSpec ∧
      update_by_path sampleSpec [.s "power_tc"] (some (.str "zz")) true =
        update_by_path sampleSpec [.s "power_tc"] (some (.str "zz")) false := by
  refine ⟨?_, ?_, ?_⟩
  · exact (update_by_path_convert_spec sampleSpec
      (.dict [(.s "power_tc", .str "test_func1")]) [.s "power_tc"]).1
      rfl "test_func1" _ rfl
  · refine (update_by_path_convert_spec sampleSpec sampleSpec
      [.s "power_tc", .i 1, .s "power"]).2.1 rfl ?_
    intro n b h
    rw [show PyVal.getPath sampleSpec [.s "power_tc", .i 1, .s "power"]
      = .ok (.str "real_pwr_mtr") from rfl] at h
    simp at h
  · exact (update_by_path_convert_spec sampleSpec sampleSpec
      [.s "power_tc"]).2.2 (.str "zz")

/-! ## The filter chain (`filters.py`)

A dataset is a table with named columns and rows carrying a timestamp (the
datetime index, modelled as `Int` minutes) and one rational value per
column.  The data model guarantees a strictly increasing, duplicate-free
index, under which pandas label slicing `.loc[p0:p1]` (inclusive on both
ends) and `index.difference` coincide with row filtering by the closed
interval, which is how they are translated below.  Numeric cell values are
rationals (the order-theoretic content of the float comparisons).

Each `_update_value` method reads the upstream node's `data` and recomputes
this node's `data`; it is modelled as a function from the upstream output
(`none` for an absent upstream / `input.data is None`) and the node's own
parameters to the recomputed output.  A raised Python exception (which
leaves `self.data` stale) is an `Except.error`.

`filters.py` imports `datetime`, `pandas`, `numpy`, `sklearn.covariance`,
`holoviews`, `panel`, `param`, `hvplot.pandas` and `captest.capdata` - and
never `warnings`; every `warnings.warn(...)` call in it therefore raises
`NameError`. -/

structure DataFrame where
  cols : List String
  rows : List (Int × List ℚ)
deriving Repr

/-- pandas `DataFrame.empty`: no elements (no rows or no columns). -/
def DataFrame.isEmptyDF (df : DataFrame) : Bool :=
  df.rows.isEmpty || df.cols.isEmpty

/-- Positions of every column labelled `c` (pandas allows duplicate
labels). -/
def DataFrame.colIdxs (df : DataFrame) (c : String) : List Nat :=
  (List.range df.cols.length).filter (fun i => df.cols.getD i "" == c)

/-- The value of a row at column position `i`. -/
def cell (r : List ℚ) (i : Nat) : ℚ := r.getD i 0

/-- pandas boolean-mask row selection `df[mask]`. -/
def maskFilter {α : Type} : List α → List Bool → List α
  | [], _ => []
  | _, [] => []
  | a :: as, b :: bs =>
      if b then a :: maskFilter as bs else maskFilter as bs

theorem maskFilter_sublist {α : Type} :
    ∀ (l : List α) (m : List Bool), (maskFilter l m).Sublist l := by
  intro l
  induction l with
  | nil => intro m; cases m <;> simp [maskFilter]
  | cons a as ih =>
      intro m
      cases m with
      | nil => simp [maskFilter]
      | cons b bs =>
          cases b with
          | true => simpa [maskFilter] using (ih bs).cons₂ a
          | false => simpa [maskFilter] using (ih bs).cons a

/-- `FilterIrradiance._update_value`: an absent or empty upstream output
yields a fresh empty frame with the poa and power columns; otherwise the
rows whose poa value lies in the inclusive `range` are retained.  A missing
poa label raises KeyError.  (A duplicate poa label - where pandas would
switch to DataFrame-mask semantics - is outside the model and mapped to
TypeError; no claim exercises it.) -/
def FilterIrradiance_update_value (input : Option DataFrame)
    (poa power : String) (low high : ℚ) : Except PErr DataFrame :=
  match input with
  | none => .ok ⟨[poa, power], []⟩
  | some df =>
      if df.isEmptyDF then .ok ⟨[poa, power], []⟩
      else
        match df.colIdxs poa with
        | [i] => .ok ⟨df.cols, df.rows.filter
            (fun r => decide (low ≤ cell r.2 i) && decide (cell r.2 i ≤ high))⟩
        | [] => .error .keyError
        | _ => .error .typeError

/-- `FilterTime._update_value`: keep the rows inside the inclusive period
`[p0, p1]`, or with `drop=True` exactly the rows outside it
(`input.index.difference` of the `.loc[p0:p1]` slice). -/
def FilterTime_update_value (input : Option DataFrame)
    (poa power : String) (p0 p1 : Int) (drop : Bool) : DataFrame :=
  match input with
  | none => ⟨[poa, power], []⟩
  | some df =>
      if df.isEmptyDF then ⟨[poa, power], []⟩
      else if drop then
        ⟨df.cols, df.rows.filter
          (fun r => !(decide (p0 ≤ r.1) && decide (r.1 ≤ p1)))⟩
      else
        ⟨df.cols, df.rows.filter
          (fun r => decide (p0 ≤ r.1) && decide (r.1 ≤ p1))⟩

/-- `FilterOutliers._update_value`: select the poa and power columns; when
that selection has more than two columns (duplicate labels) the code
reaches `warnings.warn(...)` - a NameError, `warnings` being unimported -
otherwise fit/predict of the elliptic envelope (`predict`, the external
`sklearn` classifier, returns one ±1 label per row) and keep the rows
labelled `1`. -/
def FilterOutliers_update_value (input : Option DataFrame)
    (poa power : String) (predict : List (List ℚ) → List Int) :
    Except PErr DataFrame :=
  match input with
  | none => .ok ⟨[poa, power], []⟩
  | some df =>
      if df.isEmptyDF then .ok ⟨[poa, power], []⟩
      else
        let pidx := df.colIdxs poa
        let widx := df.colIdxs power
        if pidx.isEmpty || widx.isEmpty then .error .keyError
        else
          let idxs := pidx ++ widx
          if 2 < idxs.length then .error .nameError
          else
            let X := df.rows.map (fun r => idxs.map (cell r.2))
            .ok ⟨df.cols, maskFilter df.rows ((predict X).map (fun l => l == 1))⟩

/-- `FilterClearSky._update_value`: run the external windowed clear-sky
detection (`detect`, one boolean per row) on the measured `ghi_col` against
the modelled `ghi_mod_csky` column; when no clear period is detected the
code reaches `warnings.warn(...)` - a NameError, `warnings` being
unimported - otherwise keep the detected-clear or detected-not-clear rows
per `keep_clear`. -/
def FilterClearSky_update_value (input : Option DataFrame)
    (poa power ghi : String) (window : Nat) (keepClear : Bool)
    (detect : List ℚ → List ℚ → Nat → List Bool) : Except PErr DataFrame :=
  match input with
  | none => .ok ⟨[poa, power], []⟩
  | some df =>
      if df.isEmptyDF then .ok ⟨[poa, power], []⟩
      else
        match df.colIdxs ghi, df.colIdxs "ghi_mod_csky" with
        | [i], [j] =>
            let clear := detect (df.rows.map (fun r => cell r.2 i))
              (df.rows.map (fun r => cell r.2 j)) window
            if clear.any id then
              .ok ⟨df.cols, maskFilter df.rows
                (if keepClear then clear else clear.map (!·))⟩
            else .error .nameError
        | _, _ => .error .keyError

/-- Claim C5: on a non-empty upstream dataset, the time filter with
`drop=False` outputs only rows whose timestamp lies in the inclusive
period; with `drop=True` it outputs no row inside the period, and the
output together with the dropped rows (the `.loc[p0:p1]` slice) is exactly
the input row set, with no duplication or loss. -/
theorem FilterTime_invariant (df : DataFrame) (poa power : String)
    (p0 p1 : Int) (hne : df.isEmptyDF = false) :
    ((FilterTime_update_value (some df) poa power p0 p1 false).rows.all
        (fun r => decide (p0 ≤ r.1) && decide (r.1 ≤ p1)) = true) ∧
    ((FilterTime_update_value (some df) poa power p0 p1 true).rows.all
        (fun r => !(decide (p0 ≤ r.1) && decide (r.1 ≤ p1))) = true) ∧
    ((FilterTime_update_value (some df) poa power p0 p1 true).rows ++
        df.rows.filter (fun r => decide (p0 ≤ r.1) && decide (r.1 ≤ p1))).Perm
      df.rows := by
  simp only [FilterTime_update_value, hne, Bool.false_eq_true, if_false,
    if_true]
  refine ⟨?_, ?_, ?_⟩
  · exact List.all_eq_true.mpr fun r hr => (List.mem_filter.mp hr).2
  · exact List.all_eq_true.mpr fun r hr => (List.mem_filter.mp hr).2
  · simpa using List.filter_append_perm
      (fun r => !(decide (p0 ≤ r.1) && decide (r.1 ≤ p1))) df.rows

/-- Sample upstream frame for the time-filter witness. -/
def dfTime : DataFrame :=
  ⟨["poa", "power"], [(0, [1, 2]), (5, [3, 4]), (10, [5, 6])]⟩

theorem FilterTime_invariant_witness :
    ((FilterTime_update_value (some dfTime) "poa" "power" 1 7 false).rows.all
        (fun r => decide (1 ≤ r.1) && decide (r.1 ≤ 7)) = true) ∧
    ((FilterTime_update_value (some dfTime) "poa" "power" 1 7 true).rows.all
        (fun r => !(decide (1 ≤ r.1) && decide (r.1 ≤ 7))) = true) ∧
    ((FilterTime_update_value (some dfTime) "poa" "power" 1 7 true).rows ++
        dfTime.rows.filter (fun r => decide (1 ≤ r.1) && decide (r.1 ≤ 7))).Perm
      dfTime.rows :=
  FilterTime_invariant dfTime "poa" "power" 1 7 rfl

/-- Claim C7: the irradiance filter retains exactly the rows whose (unique)
designated irradiance column lies in the inclusive range `[low, high]`; an
absent or empty upstream output yields an empty frame with the poa and
power columns and zero rows, without an error. -/
theorem FilterIrradiance_spec (df dfe : DataFrame) (poa power : String)
    (low high : ℚ) (i : Nat) (hcol : df.colIdxs poa = [i])
    (hne : df.isEmptyDF = false) (hem : dfe.isEmptyDF = true) :
    FilterIrradiance_update_value (some df) poa power low high
        = .ok ⟨df.cols, df.rows.filter
            (fun r => decide (low ≤ cell r.2 i) && decide (cell r.2 i ≤ high))⟩ ∧
    FilterIrradiance_update_value none poa power low high
        = .ok ⟨[poa, power], []⟩ ∧
    FilterIrradiance_update_value (some dfe) poa power low high
        = .ok ⟨[poa, power], []⟩ := by
  refine ⟨?_, rfl, ?_⟩
  · simp [FilterIrradiance_update_value, hne, hcol]
  · simp [FilterIrradiance_update_value, hem]

/-- Empty upstream frame (columns but no rows) for the irradiance-filter
witness. -/
def dfEmptyIrr : DataFrame := ⟨["poa", "power"], []⟩

theorem FilterIrradiance_spec_witness :
    FilterIrradiance_update_value (some dfTime) "poa" "power" 0 1200
        = .ok ⟨dfTime.cols, dfTime.rows.filter
            (fun r => decide ((0:ℚ) ≤ cell r.2 0) && decide (cell r.2 0 ≤ (1200:ℚ)))⟩ ∧
    FilterIrradiance_update_value none "poa" "power" 0 1200
        = .ok ⟨["poa", "power"], []⟩ ∧
    FilterIrradiance_update_value (some dfEmptyIrr) "poa" "power" 0 1200
        = .ok ⟨["poa", "power"], []⟩ :=
  FilterIrradiance_spec dfTime dfEmptyIrr "poa" "power" 0 1200 0 rfl rfl rfl

/-- One-row frame in which the selection `input[[poa, power]]` yields three
columns, because the poa label is duplicated. -/
def dfDupPoa : DataFrame := ⟨["poa", "poa", "power"], [(0, [100, 101, 500])]⟩

/-- Claim C6, evaluated at the failing input: with three designated columns
the outlier filter does not warn-and-pass-through - it raises.  The guard
`XandY.shape[1] > 2` fires and evaluates `warnings.warn(...)`, but
`filters.py` never imports `warnings`, so a NameError propagates (and
`self.data` is left stale rather than set to the input). -/
theorem FilterOutliers_three_columns_raises :
    FilterOutliers_update_value (some dfDupPoa) "poa" "power" (fun _ => [])
      = .error .nameError := rfl

/-- Claim C8: for each of the four filter variants, a successfully
recomputed output's row list is a sublist of the upstream input's row list,
so row counts are monotonically non-increasing along any chain of filters,
in whatever order they are composed. -/
theorem filter_chain_rows_subset
    (df : DataFrame) (poa power ghi : String) (low high : ℚ) (p0 p1 : Int)
    (drop keepClear : Bool) (window : Nat)
    (predict : List (List ℚ) → List Int)
    (detect : List ℚ → List ℚ → Nat → List Bool)
    (out1 out3 out4 : DataFrame) :
    (FilterIrradiance_update_value (some df) poa power low high = .ok out1 →
        out1.rows.Sublist df.rows ∧ out1.rows.length ≤ df.rows.length) ∧
    ((FilterTime_update_value (some df) poa power p0 p1 drop).rows.Sublist
          df.rows ∧
        (FilterTime_update_value (some df) poa power p0 p1 drop).rows.length
          ≤ df.rows.length) ∧
    (FilterOutliers_update_value (some df) poa power predict = .ok out3 →
        out3.rows.Sublist df.rows ∧ out3.rows.length ≤ df.rows.length) ∧
    (FilterClearSky_update_value (some df) poa power ghi window keepClear
          detect = .ok out4 →
        out4.rows.Sublist df.rows ∧ out4.rows.length ≤ df.rows.length) := by
  have pack : ∀ (l : List (Int × List ℚ)), l.Sublist df.rows →
      l.Sublist df.rows ∧ l.length ≤ df.rows.length :=
    fun l h => ⟨h, h.length_le⟩
  refine ⟨?_, ?_, ?_, ?_⟩
  · intro h
    simp only [FilterIrradiance_update_value] at h
    split at h
    · simp only [Except.ok.injEq] at h
      subst h
      exact pack _ (List.nil_sublist _)
    · split at h
      · simp only [Except.ok.injEq] at h
        subst h
        exact pack _ (List.filter_sublist _)
      · exact absurd h (by simp)
      · exact absurd h (by simp)
  · simp only [FilterTime_update_value]
    split
    · exact pack _ (by simp [List.nil_sublist])
    · split
      · exact pack _ (List.filter_sublist _)
      · exact pack _ (List.filter_sublist _)
  · intro h
    simp only [FilterOutliers_update_value] at h
    split at h
    · simp only [Except.ok.injEq] at h
      subst h
      exact pack _ (List.nil_sublist _)
    · split at h
      · exact absurd h (by simp)
      · split at h
        · exact absurd h (by simp)
        · simp only [Except.ok.injEq] at h
          subst h
          exact pack _ (maskFilter_sublist _ _)
  · intro h
    simp only [FilterClearSky_update_value] at h
    split at h
    · simp only [Except.ok.injEq] at h
      subst h
      exact pack _ (List.nil_sublist _)
    · split at h
      · split at h
        · simp only [Except.ok.injEq] at h
          subst h
          exact pack _ (maskFilter_sublist _ _)
        · exact absurd h (by simp)
      · exact absurd h (by simp)

/-- Sample upstream frame for the chain witness; its third column doubles
as the modelled clear-sky column. -/
def dfChain : DataFrame := ⟨["poa", "power", "ghi_mod_csky"], [(0, [500, 100, 450])]⟩

theorem filter_chain_rows_subset_witness :
    ((DataFrame.mk ["poa", "power", "ghi_mod_csky"] [(0, [500, 100, 450])]).rows.Sublist
          dfChain.rows ∧
        (DataFrame.mk ["poa", "power", "ghi_mod_csky"] [(0, [500, 100, 450])]).rows.length
          ≤ dfChain.rows.length) ∧
    ((FilterTime_update_value (some dfChain) "poa" "power" (-1) 1 false).rows.Sublist
          dfChain.rows ∧
        (FilterTime_update_value (some dfChain) "poa" "power" (-1) 1 false).rows.length
          ≤ dfChain.rows.length) ∧
    ((DataFrame.mk ["poa", "power", "ghi_mod_csky"] [(0, [500, 100, 450])]).rows.Sublist
          dfChain.rows ∧
        (DataFrame.mk ["poa", "power", "ghi_mod_csky"] [(0, [500, 100, 450])]).rows.length
          ≤ dfChain.rows.length) ∧
    ((DataFrame.mk ["poa", "power", "ghi_mod_csky"] [(0, [500, 100, 450])]).rows.Sublist
          dfChain.rows ∧
        (DataFrame.mk ["poa", "power", "ghi_mod_csky"] [(0, [500, 100, 450])]).rows.length
          ≤ dfChain.rows.length) := by
  have h := filter_chain_rows_subset dfChain "poa" "power" "poa" 0 1200
    (-1) 1 false true 10 (fun X => X.map (fun _ => 1))
    (fun g _ _ => g.map (fun _ => true))
    (DataFrame.mk ["poa", "power", "ghi_mod_csky"] [(0, [500, 100, 450])])
    (DataFrame.mk ["poa", "power", "ghi_mod_csky"] [(0, [500, 100, 450])])
    (DataFrame.mk ["poa", "power", "ghi_mod_csky"] [(0, [500, 100, 450])])
  exact ⟨h.1 rfl, h.2.1, h.2.2.1 rfl, h.2.2.2 rfl⟩

/-! ## The calc-parameter resolver (`util.process_reg_cols`)

The resolver's observable behaviour depends on Python reference semantics:
it keeps local references to dict objects while `update_by_path` rewrites
the tree from the root and resolution restarts, after which the still
running stack frames re-read their (by then possibly detached) dict
objects.  Specification values are therefore modelled with an explicit
heap: dicts and 2-tuples are heap objects addressed by `Nat` references,
while strings, callables and `None` are immediate values.  Detached
objects stay on the heap, exactly as live Python objects kept alive by a
stack frame's local variable. -/

/-- An immediate Python value or a reference to a heap object. -/
inductive HVal where
  | str (s : String)
  | func (name : String)
  | pynone
  | ref (r : Nat)
deriving DecidableEq, Repr

/-- A mutable (dict) or compound (tuple) Python object on the heap. -/
inductive HObj where
  | dict (entries : List (PKey × HVal))
  | tup (a b : HVal)
deriving DecidableEq, Repr

abbrev Heap := List HObj

/-- Python subscript read `cur[key]` over the heap. -/
def hGetItem (h : Heap) (v : HVal) (k : PKey) : Except PErr HVal :=
  match v with
  | .str s =>
      match k with
      | .i n =>
          match s.toList[n]? with
          | some c => .ok (.str (String.mk [c]))
          | none => .error .indexError
      | .s _ => .error .typeError
  | .func _ => .error .typeError
  | .pynone => .error .typeError
  | .ref r =>
      match h[r]? with
      | some (.dict es) =>
          match assocLookup es k with
          | some w => .ok w
          | none => .error .keyError
      | some (.tup a b) =>
          match k with
          | .i 0 => .ok a
          | .i 1 => .ok b
          | .i _ => .error .indexError
          | .s _ => .error .typeError
      | none => .error .typeError

/-- Python subscript assignment `cur[key] = v` over the heap: only dict
objects support item assignment. -/
def hSetItem (h : Heap) (v : HVal) (k : PKey) (nv : HVal) :
    Except PErr Heap :=
  match v with
  | .ref r =>
      match h[r]? with
      | some (.dict es) => .ok (h.set r (.dict (assocSet es k nv)))
      | some (.tup _ _) => .error .typeError
      | none => .error .typeError
  | _ => .error .typeError

/-- Navigation `root[k1][k2]...[kn]` over the heap. -/
def hNav (h : Heap) : HVal → List PKey → Except PErr HVal
  | v, [] => .ok v
  | v, k :: ks =>
      match hGetItem h v k with
      | .ok c => hNav h c ks
      | .error e => .error e

/-- The heap reading of `util.update_by_path` (the same source function as
`update_by_path` above, embedded against the heap because the resolver's
behaviour depends on object identity): navigate `path[:-1]` from the root,
then act on the last key.  The resolver always passes a concrete new value
and leaves `convert_callable` at `False`; both branches are embedded. -/
def updateByPathH (h : Heap) (root : HVal) (path : List PKey)
    (nv : Option HVal) (cc : Bool) : Except PErr Heap :=
  match path with
  | [] => .error .indexError
  | k :: ks =>
      match hNav h root ((k :: ks).dropLast) with
      | .error e => .error e
      | .ok cur =>
          let last := (k :: ks).getLast (List.cons_ne_nil k ks)
          if cc && nv.isNone then
            match hGetItem h cur last with
            | .error e => .error e
            | .ok (.ref r) =>
                match h[r]? with
                | some (.tup (.func n) _) => hSetItem h cur last (.str n)
                | _ => .ok h
            | .ok _ => .ok h
          else hSetItem h cur last (nv.getD .pynone)

/-- The slice of the `CapData` container that `process_reg_cols` interacts
with: the dataset's column names (row values are irrelevant to the
resolver), the column-group mapping, and logs of the aggregation and
derivation-function invocations it performs. -/
structure CapData where
  columns : List String
  column_groups : List (String × List String)
  aggCalls : List (String × String)
  funcCalls : List (String × List (String × String))
deriving DecidableEq, Repr

/-- The deterministic aggregated-column name used by the existence check in
`process_reg_cols` (`f"{group_id}_{agg_func}_agg"`). -/
def aggName (g f : String) : String := g ++ "_" ++ f ++ "_agg"

/-- Modelled from the spec: `CapData.agg_group` is code of this repository
that is not under `src/` (only the tests' stand-in and its callers are).
Per the spec it computes the row-wise aggregate of the group's columns,
appends it as a new column under the deterministic name
`{group_id}_{agg_func}_agg` unless that column already exists, and returns
that name.  The numeric aggregation itself is irrelevant to the claims;
the invocation is recorded in `aggCalls`. -/
def CapData.agg_group (cd : CapData) (g f : String) : CapData × String :=
  ({ cd with
      columns := if aggName g f ∈ cd.columns then cd.columns
        else cd.columns ++ [aggName g f],
      aggCalls := cd.aggCalls ++ [(g, f)] },
    aggName g f)

/-- Modelled from the spec: the derivation functions (CapData methods such
as `bom_temp`) are not under `src/`.  Per the spec and the source's own
comments inside `process_reg_cols`, such a function computes a new column
and appends it to the dataset under a name equal to the function's own
identifier; the invocation and its resolved keyword arguments are
recorded. -/
def CapData.callDeriv (cd : CapData) (fname : String)
    (kwargs : List (String × String)) : CapData :=
  { cd with
      columns := if fname ∈ cd.columns then cd.columns
        else cd.columns ++ [fname],
      funcCalls := cd.funcCalls ++ [(fname, kwargs)] }

/-- The resolver's mutable state: the heap holding the specification, the
`CapData` container, and the aggregation cache `agg_cache`. -/
structure RSt where
  heap : Heap
  cd : CapData
  cache : List ((String × String) × String)
deriving DecidableEq, Repr

/-- Outcome of a (fuel-bounded) resolver run: normal return, a propagated
Python exception, or fuel exhaustion (the Python code still running). -/
inductive RunRes where
  | ok
  | err (e : PErr)
  | fuel
deriving DecidableEq, Repr

/-- Resolution of an aggregation request `(group_id, agg_func)`, lines
310-322 of `util.py`: consult `agg_cache`; on a miss, reuse a column
already present under the deterministic expected name, otherwise invoke
`cd.agg_group`; store the resulting name in the cache. -/
def aggResolve (st : RSt) (g f : String) : RSt × String :=
  match assocLookup st.cache (g, f) with
  | some n => (st, n)
  | none =>
      if aggName g f ∈ st.cd.columns then
        ({ st with cache := st.cache ++ [((g, f), aggName g f)] }, aggName g f)
      else
        let p := st.cd.agg_group g f
        ({ st with cd := p.1, cache := st.cache ++ [((g, f), p.2)] }, p.2)

/-- `value in cd.column_groups and len(cd.column_groups[value]) == 1`
rewrites a single-column group id to its physical column name. -/
def resolveParam (cd : CapData) (s : String) : String :=
  match assocLookup cd.column_groups s with
  | some cols => if cols.length == 1 then cols.getD 0 s else s
  | none => s

/-- `all(isinstance(values, str) for values in calc_params[1].values())`. -/
def allStringsVals (bes : List (PKey × HVal)) : Bool :=
  bes.all fun kv =>
    match kv.2 with
    | .str _ => true
    | _ => false

/-- Build `updated_params` for `func(cd, **updated_params)`: every value is
a string (guarded by `allStringsVals`); a non-string key would make the
keyword expansion raise TypeError. -/
def kwargsOf (cd : CapData) : List (PKey × HVal) →
    Except PErr (List (String × String))
  | [] => .ok []
  | (k, v) :: rest =>
      match k, v with
      | .s key, .str s =>
          match kwargsOf cd rest with
          | .ok tl => .ok ((key, resolveParam cd s) :: tl)
          | .error e => .error e
      | _, _ => .error .typeError

/-- One pending activation of the recursive resolver: either
`process_reg_cols` looking at the node `cp` reached via `path`
(`calc_params` / `dict_path` in the source), or the `for` loop over a dict
object's items, with the snapshot `ks` of its keys still to visit (each
value is re-read live from the heap, as Python's `dict.items()` view
does - the key set never changes during the runs modelled here). -/
inductive Task where
  | node (cp : HVal) (path : List PKey)
  | keys (r : Nat) (ks : List PKey) (path : List PKey)

/-- The fuel-driven interpreter for `util.process_reg_cols`, lines 289-371:

* a dict node iterates its items: tuple values recurse (`Task.keys` pops
  one key at a time), a string value naming a single-column group is
  rewritten in place to that column's name (`update_by_path`), a dict value
  hits the unhashable `in cd.column_groups` membership test (TypeError),
  anything else is skipped;
* a tuple `(str, str)` is an aggregation request: resolve via the cache
  (`aggResolve`), rewrite the tree node to the aggregated column name and
  restart from the root (the local `calc_params` tuple then fails the
  remaining `isinstance` checks, so the frame just returns the restart's
  outcome);
* a tuple whose second element is a dict with all-string values rewrites
  single-column group ids in `updated_params`, invokes
  `func(cd, **updated_params)` (TypeError when `calc_params[0]` is not
  callable), rewrites the node to `func.__name__` and restarts from the
  root; with a not-yet-resolved kwargs dict, or a tuple second element, it
  recurses into `calc_params[1]` at `dict_path + [1]`;
* every other shape falls through and returns.

Every recursive call runs at one fuel less; exhausted fuel means the
Python program is still running. -/
def step : Nat → HVal → Task → RSt → RSt × RunRes
  | 0, _, _, st => (st, .fuel)
  | fuel + 1, root, .node cp path, st =>
      match cp with
      | .ref r =>
          match st.heap[r]? with
          | some (.dict es) => step fuel root (.keys r (es.map Prod.fst) path) st
          | some (.tup a b) =>
              match a, b with
              | .str g, .str f =>
                  let p := aggResolve st g f
                  match updateByPathH p.1.heap root path (some (.str p.2)) false with
                  | .error e => (p.1, .err e)
                  | .ok h' => step fuel root (.node root []) { p.1 with heap := h' }
              | _, _ =>
                  match b with
                  | .ref rb =>
                      match st.heap[rb]? with
                      | some (.dict bes) =>
                          if allStringsVals bes then
                            match kwargsOf st.cd bes with
                            | .error e => (st, .err e)
                            | .ok kwargs =>
                                match a with
                                | .func fname =>
                                    let st1 :=
                                      { st with cd := st.cd.callDeriv fname kwargs }
                                    match updateByPathH st1.heap root path
                                        (some (.str fname)) false with
                                    | .error e => (st1, .err e)
                                    | .ok h' =>
                                        step fuel root (.node root [])
                                          { st1 with heap := h' }
                                | _ => (st, .err .typeError)
                          else
                            step fuel root (.node b (path ++ [.i 1])) st
                      | some (.tup _ _) =>
                          step fuel root (.node b (path ++ [.i 1])) st
                      | none => (st, .ok)
                  | _ => (st, .ok)
          | none => (st, .ok)
      | _ => (st, .ok)
  | _ + 1, _, .keys _ [] _, st => (st, .ok)
  | fuel + 1, root, .keys r (k :: ks) path, st =>
      match st.heap[r]? with
      | some (.dict es) =>
          match assocLookup es k with
          | none => step fuel root (.keys r ks path) st
          | some v =>
              match v with
              | .ref rv =>
                  match st.heap[rv]? with
                  | some (.tup _ _) =>
                      match step fuel root (.node v (path ++ [k])) st with
                      | (st1, .ok) => step fuel root (.keys r ks path) st1
                      | other => other
                  | some (.dict _) => (st, .err .typeError)
                  | none => step fuel root (.keys r ks path) st
              | .str s =>
                  match assocLookup st.cd.column_groups s with
                  | some cols =>
                      if cols.length == 1 then
                        match updateByPathH st.heap root (path ++ [k])
                            (some (.str (cols.getD 0 s))) false with
                        | .ok h' =>
                            step fuel root (.keys r ks path) { st with heap := h' }
                        | .error e => (st, .err e)
                      else step fuel root (.keys r ks path) st
                  | none => step fuel root (.keys r ks path) st
              | .func _ => step fuel root (.keys r ks path) st
              | .pynone => step fuel root (.keys r ks path) st
      | _ => (st, .ok)

/-- `util.process_reg_cols(original_calc_params, cd=...)`: the top-level
call starts at the root with an empty `dict_path`; a fresh pass has
`st.cache = []` (`agg_cache` defaulting to `{}`). -/
def process_reg_cols (fuel : Nat) (root : HVal) (st : RSt) : RSt × RunRes :=
  step fuel root (.node root []) st

/-- The heap of the C1 scenario: the root specification dict maps
`"bom_temp"` to the tuple
`(bom_temp_fn, {"poa": ("irr_poa", "mean"), "temp_amb": ("temp_amb", "mean")})`. -/
def c1Heap : Heap :=
  [.dict [(.s "bom_temp", .ref 1)],
   .tup (.func "bom_temp_fn") (.ref 2),
   .dict [(.s "poa", .ref 3), (.s "temp_amb", .ref 4)],
   .tup (.str "irr_poa") (.str "mean"),
   .tup (.str "temp_amb") (.str "mean")]

/-- The C1 dataset: no columns yet, with the two three-sensor column
groups. -/
def c1Cd : CapData :=
  ⟨[], [("irr_poa", ["poa1", "poa2", "poa3"]),
        ("temp_amb", ["t1", "t2", "t3"])], [], []⟩

/-- Initial resolver state of the C1 scenario (fresh pass: empty cache). -/
def c1St : RSt := ⟨c1Heap, c1Cd, []⟩

/-- Claim C1, evaluated on the scenario: the run does NOT add exactly the
two columns `irr_poa_mean_agg` and `temp_amb_mean_agg` - the invoked
derivation function itself appends a third new column named after itself
(`bom_temp_fn`), as the spec's own resolver contract and the source's
comments in `process_reg_cols` prescribe. -/
theorem process_reg_cols_scenario_counterexample :
    (process_reg_cols 100 (.ref 0) c1St).1.cd.columns
        = ["irr_poa_mean_agg", "temp_amb_mean_agg", "bom_temp_fn"] ∧
      (process_reg_cols 100 (.ref 0) c1St).1.cd.columns
        ≠ ["irr_poa_mean_agg", "temp_amb_mean_agg"] :=
  ⟨rfl, by decide⟩

/-- Claim C1 as amended: one resolver pass on the scenario returns
normally, rewrites the specification entry to the string `"bom_temp_fn"`,
adds exactly three new columns - the aggregated `irr_poa_mean_agg` and
`temp_amb_mean_agg` plus `bom_temp_fn` appended by the derivation function
itself - performs exactly the two aggregations, and invokes the derivation
function once with the aggregated column names as its keyword
arguments. -/
theorem process_reg_cols_scenario :
    (process_reg_cols 100 (.ref 0) c1St).2 = .ok ∧
      hNav (process_reg_cols 100 (.ref 0) c1St).1.heap (.ref 0)
        [.s "bom_temp"] = .ok (.str "bom_temp_fn") ∧
      (process_reg_cols 100 (.ref 0) c1St).1.cd.columns
        = ["irr_poa_mean_agg", "temp_amb_mean_agg", "bom_temp_fn"] ∧
      (process_reg_cols 100 (.ref 0) c1St).1.cd.aggCalls
        = [("irr_poa", "mean"), ("temp_amb", "mean")] ∧
      (process_reg_cols 100 (.ref 0) c1St).1.cd.funcCalls
        = [("bom_temp_fn",
            [("poa", "irr_poa_mean_agg"), ("temp_amb", "temp_amb_mean_agg")])] :=
  ⟨rfl, rfl, rfl, rfl, rfl⟩

/-- A cyclic specification: the dict object maps `"x"` to the derivation
tuple `(f, d)` whose kwargs dict is the dict itself
(`d = {}; d["x"] = (f, d)`). -/
def cycHeap : Heap :=
  [.dict [(.s "x", .ref 1)], .tup (.func "f") (.ref 0)]

/-- Resolver state holding the cyclic specification. -/
def cycSt : RSt := ⟨cycHeap, ⟨[], [], [], []⟩, []⟩

/-- On the cyclic specification the resolver loops through the same three
activations - dict node, its single item, the derivation tuple whose
kwargs dict is the dict itself - for ever, exhausting any fuel without
mutating any state. -/
theorem cyc_diverges_aux : ∀ fuel : Nat, ∀ p : List PKey,
    step fuel (.ref 0) (.node (.ref 0) p) cycSt = (cycSt, .fuel) ∧
    step fuel (.ref 0) (.keys 0 [.s "x"] p) cycSt = (cycSt, .fuel) ∧
    step fuel (.ref 0) (.node (.ref 1) p) cycSt = (cycSt, .fuel) := by
  intro fuel
  induction fuel with
  | zero => intro p; exact ⟨rfl, rfl, rfl⟩
  | succ n ih =>
      intro p
      refine ⟨?_, ?_, ?_⟩
      · have h : step (n + 1) (.ref 0) (.node (.ref 0) p) cycSt
            = step n (.ref 0) (.keys 0 [.s "x"] p) cycSt := rfl
        rw [h]
        exact (ih p).2.1
      · have h : step (n + 1) (.ref 0) (.keys 0 [.s "x"] p) cycSt
            = (match step n (.ref 0) (.node (.ref 1) (p ++ [.s "x"])) cycSt with
               | (st1, .ok) => step n (.ref 0) (.keys 0 [] p) st1
               | other => other) := rfl
        rw [h, (ih (p ++ [PKey.s "x"])).2.2]
      · have h : step (n + 1) (.ref 0) (.node (.ref 1) p) cycSt
            = step n (.ref 0) (.node (.ref 0) (p ++ [.i 1])) cycSt := rfl
        rw [h]
        exact (ih (p ++ [.i 1])).1

/-- Claim C4, evaluated on the cyclic specification: the resolver does not
fail with `CyclicSpecificationError` (no such error exists anywhere in the
code, and the code performs no cycle detection) - at a fuel bound of 300 it
is still recursing. -/
theorem process_reg_cols_cycle_counterexample :
    (process_reg_cols 300 (.ref 0) cycSt).2 ≠ .err .cyclicSpecificationError ∧
      (process_reg_cols 300 (.ref 0) cycSt).2 = .fuel := by
  have h := (cyc_diverges_aux 300 []).1
  unfold process_reg_cols
  rw [h]
  exact ⟨by simp, rfl⟩

/-- Claim C4 as amended: on a cyclic specification the resolver performs no
cycle detection and raises no `CyclicSpecificationError` - it recurses
indefinitely (in Python, until the interpreter's recursion limit):
whatever the fuel, the run ends by fuel exhaustion with all state
untouched. -/
theorem process_reg_cols_cycle_diverges :
    ∀ fuel : Nat, process_reg_cols fuel (.ref 0) cycSt = (cycSt, .fuel) :=
  fun fuel => (cyc_diverges_aux fuel []).1

theorem assocLookup_mem {α β : Type} [DecidableEq α]
    {es : List (α × β)} {k : α} {v : β} (h : assocLookup es k = some v) :
    (k, v) ∈ es := by
  induction es with
  | nil => simp [assocLookup] at h
  | cons hd tl ih =>
      obtain ⟨a, b⟩ := hd
      by_cases ha : a = k
      · subst ha
        simp [assocLookup] at h
        simp [h]
      · simp only [assocLookup, if_neg ha] at h
        exact List.mem_cons_of_mem _ (ih h)

theorem assocSet_map_fst {α β : Type} [DecidableEq α]
    {es : List (α × β)} {k : α} {v : β} (w : β)
    (h : assocLookup es k = some v) :
    (assocSet es k w).map Prod.fst = es.map Prod.fst := by
  induction es with
  | nil => simp [assocLookup] at h
  | cons hd tl ih =>
      obtain ⟨a, b⟩ := hd
      by_cases ha : a = k
      · subst ha
        simp [assocSet]
      · simp only [assocLookup, if_neg ha] at h
        simp [assocSet, ha, ih h]

theorem getElem?_set_of_some {α : Type} (l : List α) (i : Nat) (a b : α)
    (h : l[i]? = some b) : (l.set i a)[i]? = some a := by
  have hi : i < l.length := by
    rcases List.getElem?_eq_some.mp h with ⟨hl, _⟩
    exact hl
  simp [List.getElem?_set_self', hi]

theorem allStringsVals_assocSet {es : List (PKey × HVal)} {k : PKey}
    (t : String) (h : allStringsVals es = true) :
    allStringsVals (assocSet es k (.str t)) = true := by
  induction es with
  | nil => simp [assocSet, allStringsVals]
  | cons hd tl ih =>
      obtain ⟨a, b⟩ := hd
      simp only [allStringsVals, List.all_cons, Bool.and_eq_true] at h
      by_cases ha : a = k
      · subst ha
        simpa [assocSet, allStringsVals] using h.2
      · simp only [assocSet, if_neg ha]
        simp only [allStringsVals, List.all_cons, Bool.and_eq_true]
        exact ⟨h.1, ih h.2⟩

theorem allStringsVals_lookup {es : List (PKey × HVal)} {k : PKey} {v : HVal}
    (hall : allStringsVals es = true) (h : assocLookup es k = some v) :
    ∃ s, v = HVal.str s := by
  have hm := assocLookup_mem h
  have := List.all_eq_true.mp hall _ hm
  cases v with
  | str s => exact ⟨s, rfl⟩
  | func n => simp at this
  | pynone => simp at this
  | ref r => simp at this

/-- The shape of a heap object, seen as a fully-resolved specification
dict: its ordered key list, defined only when it is a dict with all-string
values. -/
def strDictShape (o : HObj) : Option (List PKey) :=
  match o with
  | .dict es => if allStringsVals es then some (es.map Prod.fst) else none
  | _ => none

/-- Iterating the items of a dict object whose values are all strings
performs no aggregation and no derivation call: each value either names a
single-column group (and is rewritten, in place, to another string) or is
skipped.  The dict keeps its keys, in order, and all-string values. -/
theorem step_keys_all_strings :
    ∀ (ks : List PKey) (fuel : Nat) (st : RSt) (r : Nat)
      (es : List (PKey × HVal)),
      st.heap[r]? = some (.dict es) →
      allStringsVals es = true →
      ks.length + 1 ≤ fuel →
      ∃ st' es',
        step fuel (.ref r) (.keys r ks []) st = (st', .ok) ∧
        st'.cd = st.cd ∧ st'.cache = st.cache ∧
        st'.heap[r]? = some (.dict es') ∧
        es'.map Prod.fst = es.map Prod.fst ∧
        allStringsVals es' = true := by
  intro ks
  induction ks with
  | nil =>
      intro fuel st r es hr hall hfuel
      match fuel, hfuel with
      | m + 1, _ => exact ⟨st, es, rfl, rfl, rfl, hr, rfl, hall⟩
  | cons k ks ih =>
      intro fuel st r es hr hall hfuel
      match fuel, hfuel with
      | m + 1, hfuel =>
          have hm : ks.length + 1 ≤ m := by
            simpa [Nat.succ_le_succ_iff] using hfuel
          cases hlk : assocLookup es k with
          | none =>
              have hstep : step (m + 1) (.ref r) (.keys r (k :: ks) []) st
                  = step m (.ref r) (.keys r ks []) st := by
                simp only [step, hr, hlk]
              rw [hstep]
              exact ih m st r es hr hall hm
          | some v =>
              obtain ⟨s, rfl⟩ := allStringsVals_lookup hall hlk
              cases hg : assocLookup st.cd.column_groups s with
              | none =>
                  have hstep : step (m + 1) (.ref r) (.keys r (k :: ks) []) st
                      = step m (.ref r) (.keys r ks []) st := by
                    simp only [step, hr, hlk, hg]
                  rw [hstep]
                  exact ih m st r es hr hall hm
              | some cols =>
                  cases hlen : cols.length == 1 with
                  | false =>
                      have hstep : step (m + 1) (.ref r)
                            (.keys r (k :: ks) []) st
                          = step m (.ref r) (.keys r ks []) st := by
                        simp only [step, hr, hlk, hg, hlen, Bool.false_eq_true,
                          if_false]
                      rw [hstep]
                      exact ih m st r es hr hall hm
                  | true =>
                      have hupd : updateByPathH st.heap (.ref r) ([] ++ [k])
                          (some (.str (cols.getD 0 s))) false
                          = .ok (st.heap.set r
                              (.dict (assocSet es k (.str (cols.getD 0 s))))) := by
                        simp [updateByPathH, hNav, hSetItem, hr]
                      have hstep : step (m + 1) (.ref r)
                            (.keys r (k :: ks) []) st
                          = step m (.ref r) (.keys r ks [])
                              { st with
                                heap := st.heap.set r (.dict (assocSet es k (.str (cols.getD 0 s)))) } := by
                        simp only [step, hr, hlk, hg, hlen, if_true, hupd]
                      rw [hstep]
                      have hr' : (st.heap.set r
                            (.dict (assocSet es k (.str (cols.getD 0 s)))))[r]?
                          = some (.dict (assocSet es k (.str (cols.getD 0 s)))) :=
                        getElem?_set_of_some _ _ _ _ hr
                      obtain ⟨st', es', h1, h2, h3, h4, h5, h6⟩ :=
                        ih m
                          { st with
                            heap := st.heap.set r (.dict (assocSet es k (.str (cols.getD 0 s)))) }
                          r (assocSet es k (.str (cols.getD 0 s))) hr'
                          (allStringsVals_assocSet _ hall) hm
                      refine ⟨st', es', h1, h2, h3, h4, ?_, h6⟩
                      rw [h5, assocSet_map_fst _ hlk]

/-- Claim C2: running the resolver on an already-fully-resolved
specification (a dict in which every aggregation-request and
derivation-request node has been replaced by a string) returns normally,
adds no column to the dataset, performs no aggregation or derivation call,
leaves the cache alone, and leaves the specification structurally
unchanged: still a dict with the same keys in the same order and
all-string values. -/
theorem process_reg_cols_resolved_noop (fuel : Nat) (st : RSt) (r : Nat)
    (es : List (PKey × HVal))
    (hr : st.heap[r]? = some (.dict es))
    (hall : allStringsVals es = true)
    (hfuel : es.length + 2 ≤ fuel) :
    (process_reg_cols fuel (.ref r) st).2 = .ok ∧
    (process_reg_cols fuel (.ref r) st).1.cd = st.cd ∧
    (process_reg_cols fuel (.ref r) st).1.cache = st.cache ∧
    Option.bind ((process_reg_cols fuel (.ref r) st).1.heap[r]?) strDictShape
      = some (es.map Prod.fst) := by
  match fuel, hfuel with
  | m + 1, hfuel =>
      have hm : (es.map Prod.fst).length + 1 ≤ m := by
        simpa [Nat.succ_le_succ_iff] using hfuel
      have hstep : process_reg_cols (m + 1) (.ref r) st
          = step m (.ref r) (.keys r (es.map Prod.fst) []) st := by
        simp only [process_reg_cols, step, hr]
      obtain ⟨st', es', h1, h2, h3, h4, h5, h6⟩ :=
        step_keys_all_strings (es.map Prod.fst) m st r es hr hall hm
      rw [hstep, h1]
      exact ⟨rfl, h2, h3, by simp [h4, strDictShape, h6, h5]⟩

/-- Fully-resolved specification for the claim-C2 witness: the rolled-up
dict the repository's test ends with, plus a single-column group
reference. -/
def c2Heap : Heap :=
  [.dict [(.s "power_tc", .str "test_func1"),
          (.s "irr_total", .str "test_func4"),
          (.s "power", .str "real_pwr_mtr")]]

/-- CapData for the claim-C2 witness: one already-materialized column and a
single-column group, so the run exercises the single-column rewrite. -/
def c2Cd : CapData :=
  ⟨["irr_poa_mean_agg"], [("real_pwr_mtr", ["metered_power_kw"])], [], []⟩

theorem process_reg_cols_resolved_noop_witness :
    (process_reg_cols 10 (.ref 0) ⟨c2Heap, c2Cd, []⟩).2 = .ok ∧
    (process_reg_cols 10 (.ref 0) ⟨c2Heap, c2Cd, []⟩).1.cd = c2Cd ∧
    (process_reg_cols 10 (.ref 0) ⟨c2Heap, c2Cd, []⟩).1.cache = [] ∧
    Option.bind ((process_reg_cols 10 (.ref 0) ⟨c2Heap, c2Cd, []⟩).1.heap[0]?)
        strDictShape
      = some [.s "power_tc", .s "irr_total", .s "power"] :=
  process_reg_cols_resolved_noop 10 ⟨c2Heap, c2Cd, []⟩ 0
    [(.s "power_tc", .str "test_func1"),
     (.s "irr_total", .str "test_func4"),
     (.s "power", .str "real_pwr_mtr")] rfl rfl (by decide)

theorem assocLookup_append_of_some {α β : Type} [DecidableEq α]
    {l : List (α × β)} {k : α} {v : β} (l' : List (α × β))
    (h : assocLookup l k = some v) : assocLookup (l ++ l') k = some v := by
  induction l with
  | nil => simp [assocLookup] at h
  | cons hd tl ih =>
      obtain ⟨a, b⟩ := hd
      by_cases ha : a = k
      · subst ha
        simp only [assocLookup, if_pos rfl] at h ⊢
        exact h
      · simp only [assocLookup, if_neg ha] at h ⊢
        exact ih h

/-- `covered st g f`: an aggregation request for `(g, f)` issued from state
`st` will not invoke `agg_group` - the pair is already in `agg_cache`, or
the column with the deterministic expected name already exists in the
dataset. -/
def covered (st : RSt) (g f : String) : Prop :=
  (assocLookup st.cache (g, f)).isSome ∨ aggName g f ∈ st.cd.columns

/-- Relation between the pre- and post-state of any fragment of a resolver
run: the cache, the dataset columns and the `agg_group` call log only ever
grow; the fragment adds at most one `agg_group` invocation per
`(group_id, agg_func)` key, none at all for a key that was covered, and a
key that did get invoked is covered afterwards; duplicate-free columns stay
duplicate-free. -/
def Monot (st st' : RSt) : Prop :=
  (∃ dc, st'.cache = st.cache ++ dc) ∧
  (∃ dcol, st'.cd.columns = st.cd.columns ++ dcol) ∧
  (st.cd.columns.Nodup → st'.cd.columns.Nodup) ∧
  ∃ da, st'.cd.aggCalls = st.cd.aggCalls ++ da ∧
    ∀ g f, da.count (g, f) ≤ 1 ∧
      (covered st g f → da.count (g, f) = 0) ∧
      (0 < da.count (g, f) → covered st' g f)

theorem Monot.refl (st : RSt) : Monot st st :=
  ⟨⟨[], by simp⟩, ⟨[], by simp⟩, fun h => h,
    ⟨[], by simp, fun g f => by simp⟩⟩

theorem covered_mono {st st' : RSt} (h : Monot st st') {g f : String}
    (hc : covered st g f) : covered st' g f := by
  obtain ⟨⟨dc, hdc⟩, ⟨dcol, hdcol⟩, _, _⟩ := h
  cases hc with
  | inl hcache =>
      left
      cases hs : assocLookup st.cache (g, f) with
      | none => rw [hs] at hcache; simp at hcache
      | some v => rw [hdc, assocLookup_append_of_some dc hs]; rfl
  | inr hcol =>
      right
      rw [hdcol]
      exact List.mem_append_left _ hcol

theorem Monot.trans {st1 st2 st3 : RSt} (h1 : Monot st1 st2)
    (h2 : Monot st2 st3) : Monot st1 st3 := by
  obtain ⟨⟨dc1, hdc1⟩, ⟨dcol1, hdcol1⟩, hnd1, ⟨da1, hda1, hcnt1⟩⟩ := h1
  obtain ⟨⟨dc2, hdc2⟩, ⟨dcol2, hdcol2⟩, hnd2, ⟨da2, hda2, hcnt2⟩⟩ := h2
  have h1' : Monot st1 st2 :=
    ⟨⟨dc1, hdc1⟩, ⟨dcol1, hdcol1⟩, hnd1, ⟨da1, hda1, hcnt1⟩⟩
  have h2' : Monot st2 st3 :=
    ⟨⟨dc2, hdc2⟩, ⟨dcol2, hdcol2⟩, hnd2, ⟨da2, hda2, hcnt2⟩⟩
  refine ⟨⟨dc1 ++ dc2, by rw [hdc2, hdc1, List.append_assoc]⟩,
    ⟨dcol1 ++ dcol2, by rw [hdcol2, hdcol1, List.append_assoc]⟩,
    fun hnd => hnd2 (hnd1 hnd),
    ⟨da1 ++ da2, by rw [hda2, hda1, List.append_assoc], ?_⟩⟩
  intro g f
  obtain ⟨c1le, c1cov, c1post⟩ := hcnt1 g f
  obtain ⟨c2le, c2cov, c2post⟩ := hcnt2 g f
  rw [List.count_append]
  by_cases hc : covered st1 g f
  · have e1 : da1.count (g, f) = 0 := c1cov hc
    have e2 : da2.count (g, f) = 0 := c2cov (covered_mono h1' hc)
    refine ⟨by omega, fun _ => by omega, fun hpos => ?_⟩
    omega
  · refine ⟨?_, fun hcov => absurd hcov hc, ?_⟩
    · by_cases hp : 0 < da1.count (g, f)
      · have := c1post hp
        have e2 : da2.count (g, f) = 0 := c2cov this
        omega
      · have e1 : da1.count (g, f) = 0 := by omega
        omega
    · intro hpos
      by_cases hp2 : 0 < da2.count (g, f)
      · exact c2post hp2
      · have hp1 : 0 < da1.count (g, f) := by omega
        exact covered_mono h2' (c1post hp1)

/-- Changing only the heap leaves every `Monot` quantity untouched. -/
theorem Monot.heap_only (st : RSt) (h : Heap) :
    Monot st { st with heap := h } :=
  ⟨⟨[], by simp⟩, ⟨[], by simp⟩, fun hd => hd, ⟨[], by simp, fun g f => by simp⟩⟩

/-- `aggResolve` obeys the monotonicity contract: a cache hit does nothing;
a miss with the expected column present only caches; otherwise exactly one
`agg_group` invocation happens and its key is covered afterwards. -/
theorem aggResolve_monot (st : RSt) (g f : String) :
    Monot st (aggResolve st g f).1 := by
  unfold aggResolve
  cases hs : assocLookup st.cache (g, f) with
  | some n => exact Monot.refl st
  | none =>
      by_cases hcol : aggName g f ∈ st.cd.columns
      · simp only [if_pos hcol]
        exact ⟨⟨[((g, f), aggName g f)], rfl⟩, ⟨[], by simp⟩, fun h => h,
          ⟨[], by simp, fun g' f' => by simp⟩⟩
      · simp only [if_neg hcol]
        refine ⟨⟨[((g, f), (st.cd.agg_group g f).2)], rfl⟩,
          ⟨[aggName g f], ?_⟩, ?_, ⟨[(g, f)], ?_, ?_⟩⟩
        · simp [CapData.agg_group, if_neg hcol]
        · intro hnd
          simp only [CapData.agg_group, if_neg hcol]
          exact List.nodup_middle.mpr (by simpa using ⟨hcol, hnd⟩)
        · simp [CapData.agg_group]
        · intro g' f'
          by_cases hk : (g', f') = (g, f)
          · injection hk with hg' hf'
            subst hg'
            subst hf'
            refine ⟨by simp, fun hcov => ?_, fun _ => ?_⟩
            · exact absurd hcov (by simp [covered, hs, hcol])
            · right
              simp [CapData.agg_group, if_neg hcol]
          · have : ([(g, f)].count (g', f')) = 0 := by
              simp [List.count_cons, hk]
            refine ⟨by omega, fun _ => this, fun hpos => ?_⟩
            omega

/-- `callDeriv` performs no aggregation and only appends a (fresh) column. -/
theorem callDeriv_monot (st : RSt) (fname : String)
    (kwargs : List (String × String)) :
    Monot st { st with cd := st.cd.callDeriv fname kwargs } := by
  refine ⟨⟨[], by simp⟩, ?_, ?_, ⟨[], by simp [CapData.callDeriv], fun g f => by simp⟩⟩
  · by_cases hcol : fname ∈ st.cd.columns
    · exact ⟨[], by simp [CapData.callDeriv, if_pos hcol]⟩
    · exact ⟨[fname], by simp [CapData.callDeriv, if_neg hcol]⟩
  · intro hnd
    by_cases hcol : fname ∈ st.cd.columns
    · simpa [CapData.callDeriv, if_pos hcol] using hnd
    · simp only [CapData.callDeriv, if_neg hcol]
      exact List.nodup_middle.mpr (by simpa using ⟨hcol, hnd⟩)

/-- Every fragment of a resolver run satisfies the monotonicity contract:
in particular `agg_group` is invoked at most once per `(group_id,
agg_func)` pair, and never for a pair that is cached or whose deterministic
column already exists. -/
theorem step_monot : ∀ (fuel : Nat) (root : HVal) (task : Task) (st : RSt),
    Monot st (step fuel root task st).1 := by
  intro fuel
  induction fuel with
  | zero => intro root task st; exact Monot.refl st
  | succ n ih =>
      intro root task st
      cases task with
      | node cp path =>
          cases cp with
          | str s => exact Monot.refl st
          | func nm => exact Monot.refl st
          | pynone => exact Monot.refl st
          | ref r =>
              cases hh : st.heap[r]? with
              | none => simp only [step, hh]; exact Monot.refl st
              | some obj =>
                  cases obj with
                  | dict es =>
                      simp only [step, hh]
                      exact ih root (.keys r (es.map Prod.fst) path) st
                  | tup a b =>
                      cases a with
                      | str g =>
                          cases b with
                          | str f =>
                              simp only [step, hh]
                              cases hu : updateByPathH (aggResolve st g f).1.heap
                                  root path (some (.str (aggResolve st g f).2))
                                  false with
                              | error e =>
                                  simp only [hu]
                                  exact aggResolve_monot st g f
                              | ok h' =>
                                  simp only [hu]
                                  exact (aggResolve_monot st g f).trans
                                    ((Monot.heap_only _ h').trans
                                      (ih root (.node root []) _))
                          | ref rb =>
                              simp only [step, hh]
                              cases hb : st.heap[rb]? with
                              | none => exact Monot.refl st
                              | some objb =>
                                  cases objb with
                                  | tup x y =>
                                      exact ih root (.node (.ref rb)
                                        (path ++ [.i 1])) st
                                  | dict bes =>
                                      cases hab : allStringsVals bes with
                                      | false =>
                                          simp only [hab, Bool.false_eq_true,
                                            if_false]
                                          exact ih root (.node (.ref rb)
                                            (path ++ [.i 1])) st
                                      | true =>
                                          simp only [hab, if_true]
                                          cases hkw : kwargsOf st.cd bes with
                                          | error e => exact Monot.refl st
                                          | ok kw =>
                                              simp only [hkw]
                                              exact Monot.refl st
                          | func nm => simp only [step, hh]; exact Monot.refl st
                          | pynone => simp only [step, hh]; exact Monot.refl st
                      | func fname =>
                          cases b with
                          | ref rb =>
                              simp only [step, hh]
                              cases hb : st.heap[rb]? with
                              | none => exact Monot.refl st
                              | some objb =>
                                  cases objb with
                                  | tup x y =>
                                      exact ih root (.node (.ref rb)
                                        (path ++ [.i 1])) st
                                  | dict bes =>
                                      cases hab : allStringsVals bes with
                                      | false =>
                                          simp only [hab, Bool.false_eq_true,
                                            if_false]
                                          exact ih root (.node (.ref rb)
                                            (path ++ [.i 1])) st
                                      | true =>
                                          simp only [hab, if_true]
                                          cases hkw : kwargsOf st.cd bes with
                                          | error e => exact Monot.refl st
                                          | ok kw =>
                                              simp only [hkw]
                                              cases hu : updateByPathH
                                                  (st.cd.callDeriv fname kw
                                                    |> fun cd =>
                                                      { st with cd := cd }).heap
                                                  root path
                                                  (some (.str fname)) false with
                                              | error e =>
                                                  simp only [hu]
                                                  exact callDeriv_monot st fname kw
                                              | ok h' =>
                                                  simp only [hu]
                                                  exact (callDeriv_monot st fname
                                                      kw).trans
                                                    ((Monot.heap_only _ h').trans
                                                      (ih root (.node root []) _))
                          | str s2 => simp only [step, hh]; exact Monot.refl st
                          | func nm => simp only [step, hh]; exact Monot.refl st
                          | pynone => simp only [step, hh]; exact Monot.refl st
                      | pynone =>
                          cases b with
                          | ref rb =>
                              simp only [step, hh]
                              cases hb : st.heap[rb]? with
                              | none => exact Monot.refl st
                              | some objb =>
                                  cases objb with
                                  | tup x y =>
                                      exact ih root (.node (.ref rb)
                                        (path ++ [.i 1])) st
                                  | dict bes =>
                                      cases hab : allStringsVals bes with
                                      | false =>
                                          simp only [hab, Bool.false_eq_true,
                                            if_false]
                                          exact ih root (.node (.ref rb)
                                            (path ++ [.i 1])) st
                                      | true =>
                                          simp only [hab, if_true]
                                          cases hkw : kwargsOf st.cd bes with
                                          | error e => exact Monot.refl st
                                          | ok kw =>
                                              simp only [hkw]
                                              exact Monot.refl st
                          | str s2 => simp only [step, hh]; exact Monot.refl st
                          | func nm => simp only [step, hh]; exact Monot.refl st
                          | pynone => simp only [step, hh]; exact Monot.refl st
                      | ref ra =>
                          cases b with
                          | ref rb =>
                              simp only [step, hh]
                              cases hb : st.heap[rb]? with
                              | none => exact Monot.refl st
                              | some objb =>
                                  cases objb with
                                  | tup x y =>
                                      exact ih root (.node (.ref rb)
                                        (path ++ [.i 1])) st
                                  | dict bes =>
                                      cases hab : allStringsVals bes with
                                      | false =>
                                          simp only [hab, Bool.false_eq_true,
                                            if_false]
                                          exact ih root (.node (.ref rb)
                                            (path ++ [.i 1])) st
                                      | true =>
                                          simp only [hab, if_true]
                                          cases hkw : kwargsOf st.cd bes with
                                          | error e => exact Monot.refl st
                                          | ok kw =>
                                              simp only [hkw]
                                              exact Monot.refl st
                          | str s2 => simp only [step, hh]; exact Monot.refl st
                          | func nm => simp only [step, hh]; exact Monot.refl st
                          | pynone => simp only [step, hh]; exact Monot.refl st
      | keys r ks path =>
          cases ks with
          | nil => exact Monot.refl st
          | cons k ks =>
              cases hh : st.heap[r]? with
              | none => simp only [step, hh]; exact Monot.refl st
              | some obj =>
                  cases obj with
                  | tup a b => simp only [step, hh]; exact Monot.refl st
                  | dict es =>
                      simp only [step, hh]
                      cases hlk : assocLookup es k with
                      | none => exact ih root (.keys r ks path) st
                      | some v =>
                          cases v with
                          | ref rv =>
                              dsimp only
                              cases hv : st.heap[rv]? with
                              | none => exact ih root (.keys r ks path) st
                              | some objv =>
                                  cases objv with
                                  | dict des => exact Monot.refl st
                                  | tup x y =>
                                      dsimp only
                                      rcases hrec : step n root
                                          (.node (.ref rv) (path ++ [k])) st
                                        with ⟨st1, res⟩
                                      have hm1 : Monot st st1 := by
                                        have := ih root
                                          (.node (.ref rv) (path ++ [k])) st
                                        rwa [hrec] at this
                                      cases res with
                                      | ok =>
                                          dsimp only
                                          exact hm1.trans
                                            (ih root (.keys r ks path) st1)
                                      | err e => exact hm1
                                      | fuel => exact hm1
                          | str s =>
                              dsimp only
                              cases hg : assocLookup st.cd.column_groups s with
                              | none => exact ih root (.keys r ks path) st
                              | some cols =>
                                  cases hlen : cols.length == 1 with
                                  | false =>
                                      simp only [hlen, Bool.false_eq_true,
                                        if_false]
                                      exact ih root (.keys r ks path) st
                                  | true =>
                                      simp only [hlen, if_true]
                                      cases hu : updateByPathH st.heap root
                                          (path ++ [k])
                                          (some (.str (cols.getD 0 s)))
                                          false with
                                      | ok h' =>
                                          simp only [hu]
                                          exact (Monot.heap_only st h').trans
                                            (ih root (.keys r ks path) _)
                                      | error e =>
                                          simp only [hu]
                                          exact Monot.refl st
                          | func nm =>
                              dsimp only
                              exact ih root (.keys r ks path) st
                          | pynone =>
                              dsimp only
                              exact ih root (.keys r ks path) st

/-- Claim C3: over one resolution pass (a fresh top-level call: empty
`agg_cache`, fresh invocation log), each `(group_id, agg_func)` pair -
however many aggregation-request nodes carry it - causes at most one
`agg_group` invocation; a pair whose deterministic column
`{group_id}_{agg_func}_agg` already exists in the dataset causes none at
all (the cache-miss existence check reuses it); and duplicate-free dataset
columns stay duplicate-free, so at most one aggregated column is ever
present per pair.  (The cache stores the first request's column name, so
every later request resolves to the identical name.) -/
theorem process_reg_cols_agg_once (fuel : Nat) (root : HVal) (st : RSt)
    (g f : String) (_hc : st.cache = []) (ha : st.cd.aggCalls = []) :
    ((process_reg_cols fuel root st).1.cd.aggCalls.count (g, f) ≤ 1) ∧
    (aggName g f ∈ st.cd.columns →
      (process_reg_cols fuel root st).1.cd.aggCalls.count (g, f) = 0) ∧
    (st.cd.columns.Nodup →
      (process_reg_cols fuel root st).1.cd.columns.Nodup) := by
  obtain ⟨_, _, hnd, ⟨da, hda, hcnt⟩⟩ := step_monot fuel root (.node root []) st
  obtain ⟨c1, c2, _⟩ := hcnt g f
  have heq : (process_reg_cols fuel root st).1.cd.aggCalls = da := by
    rw [process_reg_cols, hda, ha]
    simp
  refine ⟨?_, ?_, hnd⟩
  · rw [heq]; exact c1
  · intro hcol
    rw [heq]
    exact c2 (Or.inr hcol)

/-- Specification for the claim-C3 witness: two separate aggregation
requests for the same `(irr_poa, mean)` pair whose deterministic column
already exists in the dataset. -/
def c3Heap : Heap :=
  [.dict [(.s "a", .ref 1), (.s "b", .ref 2)],
   .tup (.str "irr_poa") (.str "mean"),
   .tup (.str "irr_poa") (.str "mean")]

/-- CapData for the claim-C3 witness: the aggregated column is already
materialized. -/
def c3Cd : CapData :=
  ⟨["irr_poa_mean_agg"], [("irr_poa", ["p1", "p2"])], [], []⟩

theorem process_reg_cols_agg_once_witness :
    ((process_reg_cols 100 (.ref 0) ⟨c3Heap, c3Cd, []⟩).1.cd.aggCalls.count
        ("irr_poa", "mean") ≤ 1) ∧
    ((process_reg_cols 100 (.ref 0) ⟨c3Heap, c3Cd, []⟩).1.cd.aggCalls.count
        ("irr_poa", "mean") = 0) ∧
    (process_reg_cols 100 (.ref 0) ⟨c3Heap, c3Cd, []⟩).1.cd.columns.Nodup := by
  have h := process_reg_cols_agg_once 100 (.ref 0) ⟨c3Heap, c3Cd, []⟩
    "irr_poa" "mean" rfl rfl
  exact ⟨h.1, h.2.1 (by decide), h.2.2 (by decide)⟩

end Pvcaptest
